import Mathlib

/-!
Verification of the priority queue in `ilm_qa.py`.

The queue is a singly linked chain of `Job` nodes reachable from `head`.
We embed the chain as a `List Job` read from head to tail (the `next`
pointers are the list's cons structure), and each method of
`PriorityQueue` as a function from the chain to its result together with
the chain after the call (state passing).
-/

namespace IlmQa

/-- `MIN_PR` from the source. -/
def MIN_PR : Int := 0

/-- `MAX_PR` from the source. -/
def MAX_PR : Int := 10

/-- The message of the `assert` in `Job.__post_init__`; the spec calls this
failure `InvalidPriority`. -/
def InvalidPriority : String := "`priority` must be an integer value [0, 10]"

/-- A `Job` dataclass: `command` (a `str` subclass, embedded as `String`)
and `priority` (an `int`).  The `next` pointer is represented by the list
structure of the chain. -/
structure Job where
  command : String
  priority : Int
deriving DecidableEq

/-- `Job(command, priority)` construction: `__post_init__` asserts
`priority in range(MIN_PR, MAX_PR + 1)`, i.e. `MIN_PR <= priority <= MAX_PR`
for an integer, raising `AssertionError` otherwise. -/
def Job.make (c : String) (p : Int) : Except String Job :=
  if MIN_PR ≤ p ∧ p ≤ MAX_PR then Except.ok ⟨c, p⟩ else Except.error InvalidPriority

/-- `PriorityQueue.__init__`: `head = None`, the empty chain. -/
def emptyQueue : List Job := []

/-- `PriorityQueue.is_empty`: `head is None`. -/
def is_empty (q : List Job) : Bool := q.isEmpty

/-- The `while` loop of `enqueue`'s `else` branch: starting at a `current`
node, advance past every following node whose priority is `>=` the new
job's, then splice the job in after `current`.  `insertTail job l` is the
chain hanging off `current` (i.e. `current.next` onward) after the splice. -/
def insertTail (job : Job) : List Job → List Job
  | [] => [job]
  | j :: rest =>
    if j.priority ≥ job.priority then j :: insertTail job rest
    else job :: j :: rest

/-- The placement logic of `PriorityQueue.enqueue` after the job is built:
empty queue makes the job the head; a strictly greater priority than the
head's puts the job in front; otherwise the job is spliced in after the
walk of `insertTail` (the head itself is never displaced in that branch). -/
def insertJob (q : List Job) (job : Job) : List Job :=
  match q with
  | [] => [job]
  | head :: rest =>
    if job.priority > head.priority then job :: head :: rest
    else head :: insertTail job rest

/-- `PriorityQueue.enqueue(command, priority)`: first constructs the `Job`
(whose validation can fail), and only then mutates the chain.  The result
pairs the call's outcome with the chain after the call. -/
def enqueue (q : List Job) (c : String) (p : Int) : Except String Unit × List Job :=
  match Job.make c p with
  | Except.error e => (Except.error e, q)
  | Except.ok job => (Except.ok (), insertJob q job)

/-- `PriorityQueue.dequeue`: on an empty chain returns `None` and leaves the
chain empty; otherwise returns the head's command and advances `head` to the
detached node's successor. -/
def dequeue : List Job → Option String × List Job
  | [] => (none, [])
  | j :: rest => (some j.command, rest)

/-- `PriorityQueue.peek`: same emptiness handling as `dequeue`, but the
method body performs no assignment, so the chain after the call is the
chain before it. -/
def peek : List Job → Option String × List Job
  | [] => (none, [])
  | j :: rest => (some j.command, j :: rest)

/-- The chain left behind by a `peek` call. -/
def peekState (q : List Job) : List Job := (peek q).2

/-- Run a sequence of `enqueue` calls in order; the first failure aborts
with its error. -/
def enqueueAll (q : List Job) : List (String × Int) → Except String (List Job)
  | [] => Except.ok q
  | cp :: rest =>
    match enqueue q cp.1 cp.2 with
    | (Except.ok _, q2) => enqueueAll q2 rest
    | (Except.error e, _) => Except.error e

/-- Repeatedly calling `dequeue` until the queue is empty, collecting the
returned commands (see `drain_dequeue` for the loop-shaped equations). -/
def drain : List Job → List String
  | [] => []
  | j :: rest => j.command :: drain rest

/-- The chain, read head to tail, has non-increasing priority values. -/
def SortedDesc (q : List Job) : Prop :=
  q.Pairwise (fun a b => b.priority ≤ a.priority)

/-- Boolean test selecting the jobs of one given priority. -/
def prioEq (p : Int) (j : Job) : Bool := j.priority == p

/-- The `Job` an `enqueue (c, p)` call builds when validation passes. -/
def mkJob (cp : String × Int) : Job := ⟨cp.1, cp.2⟩

/-- The fixed command list of the driver `answer4`, in enqueue order. -/
def demoCommands : List (String × Int) :=
  [("zbe", 7), ("lmy", 10), ("swc", 7), ("jtc", 2), ("slg", 4),
   ("rwa", 10), ("zln", 1), ("ytm", 6), ("aou", 8), ("uuv", 3)]

/-! ### Basic lemmas -/

/-- `drain` is exactly the repeated-`dequeue` loop: it stops on `none` and
otherwise conses the returned command onto the drain of the advanced chain. -/
theorem drain_dequeue (q : List Job) :
    (is_empty q = true → drain q = []) ∧
    (is_empty q = false →
      drain q = ((dequeue q).1.elim [] fun c => [c]) ++ drain (dequeue q).2) := by
  cases q <;> simp [is_empty, drain, dequeue]

theorem drain_eq_map (q : List Job) : drain q = q.map Job.command := by
  induction q with
  | nil => rfl
  | cons j rest ih => simp [drain, ih]

theorem Job.make_ok {c : String} {p : Int} {job : Job}
    (h : Job.make c p = Except.ok job) :
    job = ⟨c, p⟩ ∧ MIN_PR ≤ p ∧ p ≤ MAX_PR := by
  unfold Job.make at h
  split at h
  · rename_i hv
    exact ⟨(Except.ok.inj h).symm, hv⟩
  · cases h

theorem Job.make_valid {c : String} {p : Int} (h1 : MIN_PR ≤ p) (h2 : p ≤ MAX_PR) :
    Job.make c p = Except.ok ⟨c, p⟩ := by
  unfold Job.make
  rw [if_pos ⟨h1, h2⟩]

theorem Job.make_invalid {c : String} {p : Int} (h : p < MIN_PR ∨ MAX_PR < p) :
    Job.make c p = Except.error InvalidPriority := by
  unfold Job.make
  rw [if_neg]
  rcases h with h | h <;> omega

/-! ### The splice shape of insertion -/

theorem insertTail_splice (job : Job) (l : List Job) :
    ∃ l1 l2, l = l1 ++ l2 ∧ insertTail job l = l1 ++ job :: l2 := by
  induction l with
  | nil => exact ⟨[], [], rfl, rfl⟩
  | cons j rest ih =>
    by_cases hc : j.priority ≥ job.priority
    · obtain ⟨l1, l2, h1, h2⟩ := ih
      exact ⟨j :: l1, l2, by rw [h1]; rfl, by simp [insertTail, hc, h2]⟩
    · exact ⟨[], j :: rest, rfl, by simp [insertTail, hc]⟩

theorem insertJob_splice (q : List Job) (job : Job) :
    ∃ l1 l2, q = l1 ++ l2 ∧ insertJob q job = l1 ++ job :: l2 := by
  cases q with
  | nil => exact ⟨[], [], rfl, rfl⟩
  | cons head rest =>
    by_cases hc : job.priority > head.priority
    · exact ⟨[], head :: rest, rfl, by simp [insertJob, hc]⟩
    · obtain ⟨l1, l2, h1, h2⟩ := insertTail_splice job rest
      exact ⟨head :: l1, l2, by rw [h1]; rfl, by simp [insertJob, hc, h2]⟩

theorem insertJob_perm (q : List Job) (job : Job) :
    (insertJob q job).Perm (job :: q) := by
  obtain ⟨l1, l2, h1, h2⟩ := insertJob_splice q job
  rw [h2, h1]
  exact List.perm_middle

theorem mem_insertTail {x job : Job} :
    ∀ {l : List Job}, x ∈ insertTail job l → x = job ∨ x ∈ l := by
  intro l
  induction l with
  | nil => simp [insertTail]
  | cons j rest ih =>
    by_cases hc : j.priority ≥ job.priority
    · simp only [insertTail, if_pos hc, List.mem_cons]
      rintro (h | h)
      · exact Or.inr (Or.inl h)
      · rcases ih h with h | h
        · exact Or.inl h
        · exact Or.inr (Or.inr h)
    · simp only [insertTail, if_neg hc, List.mem_cons]
      tauto

/-! ### Sortedness preservation -/

theorem insertTail_sorted (job : Job) :
    ∀ l : List Job, SortedDesc l → SortedDesc (insertTail job l) := by
  intro l
  induction l with
  | nil => intro _; simp [insertTail, SortedDesc]
  | cons j rest ih =>
    intro h
    rw [SortedDesc, List.pairwise_cons] at h
    obtain ⟨h1, h2⟩ := h
    by_cases hc : j.priority ≥ job.priority
    · rw [insertTail, if_pos hc, SortedDesc, List.pairwise_cons]
      refine ⟨?_, ih h2⟩
      intro x hx
      rcases mem_insertTail hx with rfl | hx
      · exact hc
      · exact h1 x hx
    · push_neg at hc
      rw [insertTail, if_neg (by omega), SortedDesc, List.pairwise_cons]
      refine ⟨?_, List.pairwise_cons.2 ⟨h1, h2⟩⟩
      intro x hx
      rcases List.mem_cons.1 hx with rfl | hx
      · omega
      · have := h1 x hx
        omega

theorem insertJob_sorted (q : List Job) (job : Job) (h : SortedDesc q) :
    SortedDesc (insertJob q job) := by
  cases q with
  | nil => simp [insertJob, SortedDesc]
  | cons head rest =>
    rw [SortedDesc, List.pairwise_cons] at h
    obtain ⟨h1, h2⟩ := h
    by_cases hc : job.priority > head.priority
    · rw [insertJob, if_pos hc, SortedDesc, List.pairwise_cons]
      refine ⟨?_, List.pairwise_cons.2 ⟨h1, h2⟩⟩
      intro x hx
      rcases List.mem_cons.1 hx with rfl | hx
      · omega
      · have := h1 x hx
        omega
    · push_neg at hc
      rw [insertJob, if_neg (by omega), SortedDesc, List.pairwise_cons]
      refine ⟨?_, insertTail_sorted job rest h2⟩
      intro x hx
      rcases mem_insertTail hx with rfl | hx
      · exact hc
      · exact h1 x hx

/-! ### Stability: the filter of each priority class -/

theorem filter_eq_nil_of (f : Job → Bool) (l : List Job)
    (h : ∀ x ∈ l, f x = false) : l.filter f = [] := by
  induction l with
  | nil => rfl
  | cons j rest ih =>
    rw [List.filter_cons, h j (List.mem_cons_self j rest)]
    exact ih fun x hx => h x (List.mem_cons_of_mem j hx)

theorem filter_insertTail (job : Job) (p : Int) :
    ∀ l : List Job, SortedDesc l →
      (insertTail job l).filter (prioEq p)
        = l.filter (prioEq p) ++ if job.priority = p then [job] else [] := by
  intro l
  induction l with
  | nil =>
    intro _
    simp only [insertTail, List.filter_nil, List.nil_append, List.filter_cons]
    by_cases hp : job.priority = p
    · rw [if_pos hp, if_pos (by simp [prioEq, hp])]
    · rw [if_neg hp, if_neg (by simp [prioEq, hp])]
  | cons j rest ih =>
    intro h
    rw [SortedDesc, List.pairwise_cons] at h
    obtain ⟨h1, h2⟩ := h
    by_cases hc : j.priority ≥ job.priority
    · rw [insertTail, if_pos hc, List.filter_cons, List.filter_cons, ih h2]
      by_cases hj : prioEq p j = true
      · rw [if_pos hj, if_pos hj]
        rfl
      · rw [if_neg hj, if_neg hj]
    · push_neg at hc
      rw [insertTail, if_neg (by omega), List.filter_cons]
      by_cases hp : job.priority = p
      · rw [if_pos (by simp [prioEq, hp])]
        have hnil : (j :: rest).filter (prioEq p) = [] := by
          refine filter_eq_nil_of _ _ ?_
          intro x hx
          rcases List.mem_cons.1 hx with rfl | hx
          · simp only [prioEq, beq_eq_false_iff_ne, ne_eq]
            omega
          · have := h1 x hx
            simp only [prioEq, beq_eq_false_iff_ne, ne_eq]
            omega
        rw [hnil, if_pos hp]
        rfl
      · rw [if_neg (by simp [prioEq, hp]), if_neg hp, List.append_nil]

theorem filter_insertJob (q : List Job) (job : Job) (p : Int) (h : SortedDesc q) :
    (insertJob q job).filter (prioEq p)
      = q.filter (prioEq p) ++ if job.priority = p then [job] else [] := by
  cases q with
  | nil =>
    simp only [insertJob, List.filter_nil, List.nil_append, List.filter_cons]
    by_cases hp : job.priority = p
    · rw [if_pos hp, if_pos (by simp [prioEq, hp])]
    · rw [if_neg hp, if_neg (by simp [prioEq, hp])]
  | cons head rest =>
    rw [SortedDesc, List.pairwise_cons] at h
    obtain ⟨h1, h2⟩ := h
    by_cases hc : job.priority > head.priority
    · rw [insertJob, if_pos hc, List.filter_cons]
      by_cases hp : job.priority = p
      · rw [if_pos (by simp [prioEq, hp])]
        have hnil : (head :: rest).filter (prioEq p) = [] := by
          refine filter_eq_nil_of _ _ ?_
          intro x hx
          rcases List.mem_cons.1 hx with rfl | hx
          · simp only [prioEq, beq_eq_false_iff_ne, ne_eq]
            omega
          · have := h1 x hx
            simp only [prioEq, beq_eq_false_iff_ne, ne_eq]
            omega
        rw [hnil, if_pos hp]
        rfl
      · rw [if_neg (by simp [prioEq, hp]), if_neg hp, List.append_nil]
    · rw [insertJob, if_neg hc, List.filter_cons, List.filter_cons,
        filter_insertTail job p rest h2]
      by_cases hj : prioEq p head = true
      · rw [if_pos hj, if_pos hj]
        rfl
      · rw [if_neg hj, if_neg hj]

theorem filter_mkJob_cons (cp : String × Int) (js : List (String × Int)) (p : Int) :
    ((cp :: js).map mkJob).filter (prioEq p)
      = (if (mkJob cp).priority = p then [mkJob cp] else [])
          ++ (js.map mkJob).filter (prioEq p) := by
  rw [List.map_cons, List.filter_cons]
  by_cases hp : (mkJob cp).priority = p
  · rw [if_pos (by simp [prioEq, hp]), if_pos hp]
    rfl
  · rw [if_neg (by simp [prioEq, hp]), if_neg hp, List.nil_append]

/-! ### The master induction over an enqueue sequence -/

theorem enqueueAll_ok (js : List (String × Int)) :
    ∀ q q' : List Job, SortedDesc q → enqueueAll q js = Except.ok q' →
      SortedDesc q'
      ∧ (∀ p : Int, q'.filter (prioEq p)
          = q.filter (prioEq p) ++ (js.map mkJob).filter (prioEq p))
      ∧ q'.Perm (q ++ js.map mkJob) := by
  induction js with
  | nil =>
    intro q q' hs h
    rw [enqueueAll] at h
    cases h
    exact ⟨hs, fun p => by simp, by simp⟩
  | cons cp rest ih =>
    intro q q' hs h
    rw [enqueueAll] at h
    rcases hmk : Job.make cp.1 cp.2 with e | job
    · rw [enqueue, hmk] at h
      cases h
    · rw [enqueue, hmk] at h
      obtain ⟨hjob, -, -⟩ := Job.make_ok hmk
      subst hjob
      have hs2 : SortedDesc (insertJob q ⟨cp.1, cp.2⟩) := insertJob_sorted q _ hs
      obtain ⟨hs', hf', hp'⟩ := ih (insertJob q ⟨cp.1, cp.2⟩) q' hs2 h
      refine ⟨hs', ?_, ?_⟩
      · intro p
        rw [hf' p, filter_insertJob q _ p hs, filter_mkJob_cons, List.append_assoc]
        rfl
      · rw [List.map_cons]
        refine hp'.trans ?_
        refine ((insertJob_perm q _).append_right _).trans ?_
        exact List.perm_middle.symm

/-! ### The claims -/

/-- C1: for every sequence of enqueue calls with valid priorities (run from
the fresh queue), the chain read head to tail has non-increasing priorities,
and the jobs of each fixed priority `p` appear in exactly their enqueue
order; the invariant also survives a dequeue (the tail of a sorted chain is
sorted). -/
theorem enqueue_sequence_invariant (js : List (String × Int)) (q' : List Job) (p : Int)
    (h : enqueueAll emptyQueue js = Except.ok q') :
    SortedDesc q'
    ∧ q'.filter (prioEq p) = (js.map mkJob).filter (prioEq p)
    ∧ SortedDesc (dequeue q').2 := by
  obtain ⟨hs, hf, -⟩ :=
    enqueueAll_ok js emptyQueue q' (by simp [SortedDesc, emptyQueue]) h
  refine ⟨hs, by simpa [emptyQueue] using hf p, ?_⟩
  cases q' with
  | nil => simp [dequeue, SortedDesc]
  | cons j rest =>
    rw [SortedDesc, List.pairwise_cons] at hs
    exact hs.2

theorem enqueue_sequence_invariant_witness :
    enqueueAll emptyQueue [("zbe", 7), ("lmy", 10), ("swc", 7)]
        = Except.ok [Job.mk "lmy" 10, Job.mk "zbe" 7, Job.mk "swc" 7]
    ∧ (SortedDesc [Job.mk "lmy" 10, Job.mk "zbe" 7, Job.mk "swc" 7]
       ∧ List.filter (prioEq 7) [Job.mk "lmy" 10, Job.mk "zbe" 7, Job.mk "swc" 7]
          = List.filter (prioEq 7)
              (([("zbe", 7), ("lmy", 10), ("swc", 7)] : List (String × Int)).map mkJob)
       ∧ SortedDesc (dequeue [Job.mk "lmy" 10, Job.mk "zbe" 7, Job.mk "swc" 7]).2) :=
  ⟨by rfl, enqueue_sequence_invariant _ _ 7 (by rfl)⟩

/-- C2: draining a queue built by any sequence of valid enqueue calls (the
repeated-dequeue loop `drain`) returns a permutation, hence the exact
multiset, of the enqueued commands; the output order is the chain order
head to tail, which is non-increasing in priority and, within each priority
`p`, exactly the enqueue order. -/
theorem drain_equivalence (js : List (String × Int)) (q' : List Job) (p : Int)
    (h : enqueueAll emptyQueue js = Except.ok q') :
    (drain q').Perm (js.map Prod.fst)
    ∧ drain q' = q'.map Job.command
    ∧ SortedDesc q'
    ∧ q'.filter (prioEq p) = (js.map mkJob).filter (prioEq p) := by
  obtain ⟨hs, hf, hperm⟩ :=
    enqueueAll_ok js emptyQueue q' (by simp [SortedDesc, emptyQueue]) h
  have hq : q'.Perm (js.map mkJob) := by simpa [emptyQueue] using hperm
  refine ⟨?_, drain_eq_map q', hs, by simpa [emptyQueue] using hf p⟩
  rw [drain_eq_map]
  have hm := hq.map Job.command
  simpa [List.map_map, Function.comp, mkJob] using hm

theorem drain_equivalence_witness :
    enqueueAll emptyQueue [("a", 1), ("b", 2)] = Except.ok [Job.mk "b" 2, Job.mk "a" 1]
    ∧ ((drain [Job.mk "b" 2, Job.mk "a" 1]).Perm
          ((([("a", 1), ("b", 2)] : List (String × Int))).map Prod.fst)
       ∧ drain [Job.mk "b" 2, Job.mk "a" 1]
          = List.map Job.command [Job.mk "b" 2, Job.mk "a" 1]
       ∧ SortedDesc [Job.mk "b" 2, Job.mk "a" 1]
       ∧ List.filter (prioEq 1) [Job.mk "b" 2, Job.mk "a" 1]
          = List.filter (prioEq 1) (([("a", 1), ("b", 2)] : List (String × Int)).map mkJob)) :=
  ⟨by rfl, drain_equivalence _ _ 1 (by rfl)⟩

/-- C3: the driver scenario: enqueueing the ten fixed (command, priority)
pairs in order and then draining yields exactly
lmy, rwa, aou, zbe, swc, ytm, slg, uuv, jtc, zln. -/
theorem demo_scenario :
    (enqueueAll emptyQueue demoCommands).map drain
      = Except.ok ["lmy", "rwa", "aou", "zbe", "swc", "ytm", "slg", "uuv", "jtc", "zln"] := by
  rfl

/-- C4: enqueue fails with the InvalidPriority error exactly when the
priority lies outside `[MIN_PR, MAX_PR] = [0, 10]`; on an in-range priority
it succeeds and splices in a job carrying exactly the given priority
(no clamping or coercion). -/
theorem enqueue_range_validation (q : List Job) (c : String) (p : Int) :
    ((enqueue q c p).1 = Except.error InvalidPriority ↔ p < MIN_PR ∨ MAX_PR < p)
    ∧ (MIN_PR ≤ p → p ≤ MAX_PR →
        enqueue q c p = (Except.ok (), insertJob q ⟨c, p⟩)) := by
  constructor
  · constructor
    · intro h
      by_contra hc
      push_neg at hc
      unfold enqueue at h
      rw [Job.make_valid hc.1 hc.2] at h
      simp at h
    · intro h
      unfold enqueue
      rw [Job.make_invalid h]
  · intro h1 h2
    unfold enqueue
    rw [Job.make_valid h1 h2]

theorem enqueue_range_validation_witness :
    (enqueue emptyQueue "a" (-1)).1 = Except.error InvalidPriority
    ∧ (enqueue emptyQueue "a" 11).1 = Except.error InvalidPriority
    ∧ enqueue emptyQueue "a" 0 = (Except.ok (), insertJob emptyQueue ⟨"a", 0⟩)
    ∧ enqueue emptyQueue "a" 10 = (Except.ok (), insertJob emptyQueue ⟨"a", 10⟩) :=
  ⟨(enqueue_range_validation emptyQueue "a" (-1)).1.mpr (by decide),
   (enqueue_range_validation emptyQueue "a" 11).1.mpr (by decide),
   (enqueue_range_validation emptyQueue "a" 0).2 (by decide) (by decide),
   (enqueue_range_validation emptyQueue "a" 10).2 (by decide) (by decide)⟩

/-- C5: an enqueue with an out-of-range priority fails before touching the
chain: the chain after the failed call is exactly the chain before it, so
`is_empty` answers the same, and the outcome is the InvalidPriority error. -/
theorem enqueue_invalid_preserves_state (q : List Job) (c : String) (p : Int)
    (h : p < MIN_PR ∨ MAX_PR < p) :
    (enqueue q c p).2 = q
    ∧ is_empty (enqueue q c p).2 = is_empty q
    ∧ (enqueue q c p).1 = Except.error InvalidPriority := by
  unfold enqueue
  rw [Job.make_invalid h]
  exact ⟨rfl, rfl, rfl⟩

theorem enqueue_invalid_preserves_state_witness :
    ((11 : Int) < MIN_PR ∨ MAX_PR < (11 : Int))
    ∧ ((enqueue [Job.mk "x" 5] "y" 11).2 = [Job.mk "x" 5]
       ∧ is_empty (enqueue [Job.mk "x" 5] "y" 11).2 = is_empty [Job.mk "x" 5]
       ∧ (enqueue [Job.mk "x" 5] "y" 11).1 = Except.error InvalidPriority) :=
  ⟨by decide, enqueue_invalid_preserves_state _ "y" 11 (by decide)⟩

/-- C6: `peek`, iterated any number of times with no intervening mutation,
leaves the chain exactly as it was, keeps returning the same value, and
changes neither `is_empty` nor the outcome of a subsequent `dequeue`. -/
theorem peek_idempotent (q : List Job) (n : Nat) :
    peekState^[n] q = q
    ∧ (peek (peekState^[n] q)).1 = (peek q).1
    ∧ is_empty (peekState^[n] q) = is_empty q
    ∧ dequeue (peekState^[n] q) = dequeue q := by
  have hfix : peekState q = q := by cases q <;> rfl
  have hit : peekState^[n] q = q := Function.iterate_fixed hfix n
  rw [hit]
  exact ⟨rfl, rfl, rfl, rfl⟩

/-- C7: on a freshly constructed queue, `is_empty` is true and both
`dequeue` and `peek` return `none` (the absent-value signal), not an
error. -/
theorem fresh_queue_behavior :
    is_empty emptyQueue = true
    ∧ (dequeue emptyQueue).1 = none
    ∧ (peek emptyQueue).1 = none :=
  ⟨rfl, rfl, rfl⟩

/-- C8: on a non-empty queue, `dequeue` returns the head job's command and
leaves exactly the old chain minus its first element (the head's successor
onward, order untouched). -/
theorem dequeue_nonempty_behavior (q : List Job) (h : is_empty q = false) :
    (dequeue q).1 = q.head?.map Job.command ∧ (dequeue q).2 = q.tail := by
  cases q with
  | nil => simp [is_empty] at h
  | cons j rest => exact ⟨rfl, rfl⟩

theorem dequeue_nonempty_behavior_witness :
    is_empty [Job.mk "a" 3, Job.mk "b" 2] = false
    ∧ ((dequeue [Job.mk "a" 3, Job.mk "b" 2]).1
        = (List.head? [Job.mk "a" 3, Job.mk "b" 2]).map Job.command
       ∧ (dequeue [Job.mk "a" 3, Job.mk "b" 2]).2
          = List.tail [Job.mk "a" 3, Job.mk "b" 2]) :=
  ⟨by rfl, dequeue_nonempty_behavior _ (by rfl)⟩

/-- C9: on every queue state, `peek` returns exactly the value the
`dequeue` on that same state returns, the `none` signal on the empty queue
included. -/
theorem peek_agrees_with_dequeue (q : List Job) : (peek q).1 = (dequeue q).1 := by
  cases q <;> rfl

/-- C10: a valid enqueue only splices the single new job into the chain:
the old chain splits as `l1 ++ l2` with the new chain `l1 ++ job :: l2`,
so every old job survives unchanged, the old relative order is kept (the
old chain is a sublist of the new one) and the length grows by exactly
one. -/
theorem enqueue_frame (q : List Job) (c : String) (p : Int)
    (h1 : MIN_PR ≤ p) (h2 : p ≤ MAX_PR) :
    (∃ l1 l2, q = l1 ++ l2 ∧ (enqueue q c p).2 = l1 ++ Job.mk c p :: l2)
    ∧ (enqueue q c p).2.length = q.length + 1
    ∧ q.Sublist (enqueue q c p).2 := by
  have he : enqueue q c p = (Except.ok (), insertJob q ⟨c, p⟩) := by
    unfold enqueue
    rw [Job.make_valid h1 h2]
  rw [he]
  obtain ⟨l1, l2, hq, hins⟩ := insertJob_splice q ⟨c, p⟩
  refine ⟨⟨l1, l2, hq, hins⟩, ?_, ?_⟩
  · rw [hins, hq]
    simp only [List.length_append, List.length_cons]
    omega
  · rw [hins, hq]
    exact List.Sublist.append_left ((List.Sublist.refl l2).cons _) l1

theorem enqueue_frame_witness :
    (MIN_PR ≤ (7 : Int) ∧ (7 : Int) ≤ MAX_PR)
    ∧ ((∃ l1 l2, [Job.mk "b" 5] = l1 ++ l2
          ∧ (enqueue [Job.mk "b" 5] "a" 7).2 = l1 ++ Job.mk "a" 7 :: l2)
       ∧ (enqueue [Job.mk "b" 5] "a" 7).2.length = [Job.mk "b" 5].length + 1
       ∧ [Job.mk "b" 5].Sublist (enqueue [Job.mk "b" 5] "a" 7).2) :=
  ⟨⟨by decide, by decide⟩, enqueue_frame _ "a" 7 (by decide) (by decide)⟩

end IlmQa
